import Mathlib

/-!
# A verification development for the `codingAgent` CLI core

This file embeds, in Lean, the orchestration / safety / patch-application
core of the `codingAgent` TypeScript repository:

* `src/commands/shell.ts` — `isCommandSafe`, `executeShellCommand`,
  `executeInteractiveCommand`
* `src/agent.ts` — `applyEdit` (content transformation) and `applyEdits`
* `src/commands/validation.ts` — `validateEdit` and its helpers
* `src/services` proposal validator — `preflight`
* `src/commands/search.ts` — `calculateRelevance` and the descending sort
  of `searchCodebase`
* `src/cli.ts` — the compound-action step loop and the accept branch

JavaScript strings are modelled as `List Char` (`Str`).  JavaScript string
primitives used by the code (`includes`, `indexOf`, `split`, `join`,
`replace`, `trim`, `toLowerCase`, `startsWith`, `endsWith`) are defined
below with their JavaScript semantics.  File-system reads/writes, child
processes and LLM calls are external effects; they enter the model as
explicit inputs (event traces and oracle functions), while every decision
that the TypeScript code makes on their results is translated faithfully.
-/

/-- JavaScript strings, modelled as lists of characters. -/
abbrev Str : Type := List Char

/-- Shorthand turning a Lean string literal into the `Str` model. -/
def str (s : String) : Str := s.data

/-- First index at which `pat` occurs in `s` as a contiguous substring:
JavaScript `s.indexOf(pat)` (with `none` for `-1`).  The empty pattern
occurs at index 0, as in JavaScript. -/
def strIndexOf (s pat : Str) : Option Nat :=
  if pat.isPrefixOf s then some 0
  else
    match s with
    | [] => none
    | _ :: t => (strIndexOf t pat).map (· + 1)

/-- JavaScript `s.includes(pat)`. -/
def containsStr (s pat : Str) : Bool :=
  (strIndexOf s pat).isSome

/-- JavaScript `s.split(c)` for a one-character separator: keeps empty
pieces, and splitting the empty string yields `[""]`. -/
def splitOnChar (c : Char) : Str → List Str
  | [] => [[]]
  | x :: xs =>
    match splitOnChar c xs with
    | [] => if x = c then [[], []] else [[x]]
    | y :: ys => if x = c then [] :: y :: ys else (x :: y) :: ys

/-- JavaScript `pieces.join(c)` for a one-character separator. -/
def joinWith (c : Char) : List Str → Str
  | [] => []
  | [s] => s
  | s :: rest => s ++ c :: joinWith c rest

/-- JavaScript `s.replace(pat, rep)` with a string pattern: replaces the
first occurrence only; with an empty pattern it prepends `rep`. -/
def replaceFirst (s pat rep : Str) : Str :=
  match strIndexOf s pat with
  | none => s
  | some i => s.take i ++ rep ++ s.drop (i + pat.length)

/-- The whitespace characters relevant to the commands the agent handles
(JavaScript `trim` also strips them). -/
def isWsChar (c : Char) : Bool :=
  c = ' ' || c = '\t' || c = '\n' || c = '\r'

/-- JavaScript `s.trim()`. -/
def trimStr (s : Str) : Str :=
  ((s.dropWhile isWsChar).reverse.dropWhile isWsChar).reverse

/-- JavaScript `s.toLowerCase()`, restricted to ASCII (all strings the
agent classifies are ASCII; `Char.toLower` lowers exactly `A`–`Z`). -/
def toLowerStr (s : Str) : Str := s.map Char.toLower

/-- JavaScript `s.startsWith(p)`. -/
def startsWithStr (s p : Str) : Bool := p.isPrefixOf s

/-- JavaScript `s.endsWith(p)`. -/
def endsWithStr (s p : Str) : Bool := p.isSuffixOf s

/-- JavaScript array indexing `xs[i]` with a possibly negative index
(`undefined` is `none`). -/
def getAt (xs : List Str) (i : Int) : Option Str :=
  if i < 0 then none else xs[i.toNat]?

/-- JavaScript `xs[i] = v` for an in-range index computed by `getAt`. -/
def setAt (xs : List Str) (i : Int) (v : Str) : List Str :=
  if i < 0 then xs else xs.set i.toNat v

/-! ## `src/commands/shell.ts` — command safety classifier -/

/-- The `SAFE_COMMANDS` allow-list of `shell.ts`. -/
def SAFE_COMMANDS : List Str :=
  [str "npm", str "yarn", str "pnpm", str "git", str "ls", str "pwd",
   str "cat", str "head", str "tail", str "grep", str "find", str "mkdir",
   str "cp", str "mv", str "touch", str "echo", str "node", str "tsc"]

/-- The `DANGEROUS_COMMANDS` deny-list of `shell.ts`. -/
def DANGEROUS_COMMANDS : List Str :=
  [str "rm", str "rmdir", str "del", str "sudo", str "chmod", str "chown",
   str "dd", str "format", str "mkfs", str "fdisk", str "kill", str "killall"]

/-- Result type of `isCommandSafe`. -/
structure SafeResult where
  safe : Bool
  reason : Option Str
  deriving DecidableEq, Repr

/-- The base token of a command as `isCommandSafe` computes it: first
piece of the trimmed command split on `' '`, lowercased. -/
def baseToken (command : Str) : Str :=
  toLowerStr ((splitOnChar ' ' (trimStr command)).headD [])

def noCommandReason : Str := str "No command provided"
def emptyCommandReason : Str := str "Empty command"
def invalidFormatReason : Str := str "Invalid command format"
def dangerousReason (base : Str) : Str :=
  str "Command '" ++ base ++ str "' is potentially dangerous"
def chainingReason : Str := str "Command chaining is not allowed for security"
def sudoReason : Str := str "Sudo commands are not allowed"
def notAllowedReason (base : Str) : Str :=
  str "Command '" ++ base ++ str "' is not in the allowed list"
def runScriptsReason : Str := str "Running user-defined scripts is not allowed"

/-- `isCommandSafe` from `src/commands/shell.ts`, translated clause by
clause.  The TypeScript function takes only the command string: it reads
no environment variable and has no policy-mode input. -/
def isCommandSafe (command : Str) : SafeResult :=
  if command = [] then ⟨false, some noCommandReason⟩
  else
    let trimmedCommand := trimStr command
    if trimmedCommand = [] then ⟨false, some emptyCommandReason⟩
    else
      let parts := splitOnChar ' ' trimmedCommand
      let baseCommand := toLowerStr (parts.headD [])
      if baseCommand = [] then ⟨false, some invalidFormatReason⟩
      else if baseCommand ∈ DANGEROUS_COMMANDS then
        ⟨false, some (dangerousReason baseCommand)⟩
      else if containsStr trimmedCommand (str "&&")
           || containsStr trimmedCommand (str "||")
           || containsStr trimmedCommand (str ";") then
        ⟨false, some chainingReason⟩
      else if containsStr trimmedCommand (str "sudo") then
        ⟨false, some sudoReason⟩
      else if baseCommand ∉ SAFE_COMMANDS then
        ⟨false, some (notAllowedReason baseCommand)⟩
      else if (baseCommand ∈ [str "npm", str "yarn", str "pnpm"])
              && (parts[1]? = some (str "run")) then
        ⟨false, some runScriptsReason⟩
      else ⟨true, none⟩

/-- A command string contains one of the chaining operators the
classifier looks for. -/
def containsChainOp (command : Str) : Bool :=
  containsStr command (str "&&") || containsStr command (str "||")
    || containsStr command (str ";")

example : (isCommandSafe (str "ls -la")).safe = true := by decide
example : (isCommandSafe (str "sudo npm install")).safe = false := by decide
example : isCommandSafe (str "npm install && npm start")
    = ⟨false, some chainingReason⟩ := by decide
example : isCommandSafe (str "rm -rf tmp && ls")
    = ⟨false, some (dangerousReason (str "rm"))⟩ := by decide

/-! ## `src/commands/shell.ts` — execution engine

`executeShellCommand` has two branches.  The non-interactive branch runs
`execAsync(command, { cwd, timeout, maxBuffer })` — an external effect,
modelled by an `ExecOutcome` input describing what the subprocess did.
The interactive branch calls `executeInteractiveCommand(command, cwd)`:
it spawns a child process, accumulates and forwards `stdout`/`stderr`
data events, and resolves only when a `close` event fires.  The child
process behaviour is modelled as the finite list of events it emits; the
returned promise is modelled as `Option ShellResult`, `none` meaning the
promise has not resolved (the call blocks). -/

structure ShellResult where
  stdout : Str
  stderr : Str
  exitCode : Int
  command : Str
  deriving DecidableEq, Repr

structure ShellOptions where
  cwd : Str
  timeout : Int := 30000
  interactive : Bool := false
  deriving DecidableEq, Repr

/-- What the `child_process.exec` call did (external effect): either it
completed with captured output, or it failed (non-zero exit, timeout or
signal) carrying whatever output and exit code the error object had. -/
inductive ExecOutcome where
  | success (stdout stderr : Str)
  | failure (stdout stderr : Str) (code : Option Int) (message : Str)
  deriving DecidableEq, Repr

/-- An event emitted by the spawned child process in interactive mode. -/
inductive SpawnEvent where
  | stdoutData (chunk : Str)
  | stderrData (chunk : Str)
  | close (code : Option Int)
  deriving DecidableEq, Repr

/-- The accumulation loop of `executeInteractiveCommand`: gather stdout
and stderr chunks; resolve at the first `close` event (with `code ?? 0`);
if the event stream ends without `close`, the promise never resolves. -/
def interactiveLoop (command : Str) (stdout stderr : Str) :
    List SpawnEvent → Option ShellResult
  | [] => none
  | .stdoutData chunk :: rest => interactiveLoop command (stdout ++ chunk) stderr rest
  | .stderrData chunk :: rest => interactiveLoop command stdout (stderr ++ chunk) rest
  | .close code :: _ =>
    some ⟨trimStr stdout, trimStr stderr, code.getD 0, command⟩

/-- `executeInteractiveCommand(command, cwd)` from `shell.ts`.  It splits
the command on spaces, filters empty parts, resolves immediately with
exit code 1 on an empty command, and otherwise spawns the child and
resolves on its `close` event.  No timer is set anywhere in the function:
the `events` trace is its only way to resolve. -/
def executeInteractiveCommand (command : Str) (events : List SpawnEvent) :
    Option ShellResult :=
  let parts := (splitOnChar ' ' command).filter (· ≠ [])
  if parts = [] then some ⟨[], str "Empty command", 1, command⟩
  else interactiveLoop command [] [] events

/-- The captured (non-interactive) branch of `executeShellCommand`,
including the `catch` clause that turns a failure into a `ShellResult`
with `error.code || 1` and `error.stderr || error.message`. -/
def capturedResult (command : Str) : ExecOutcome → ShellResult
  | .success stdout stderr => ⟨trimStr stdout, trimStr stderr, 0, command⟩
  | .failure stdout stderr code message =>
    ⟨stdout, if stderr = [] then message else stderr,
     match code with
     | some c => if c = 0 then 1 else c
     | none => 1,
     command⟩

/-- `executeShellCommand` from `shell.ts`.  In interactive mode it calls
`executeInteractiveCommand(command, cwd)` — note that `options.timeout`
is not passed to it and plays no role in that branch. -/
def executeShellCommand (command : Str) (options : ShellOptions)
    (outcome : ExecOutcome) (events : List SpawnEvent) : Option ShellResult :=
  if options.interactive then
    executeInteractiveCommand command events
  else
    some (capturedResult command outcome)

/-! ## `src/agent.ts` — `applyEdit` content transformation

`applyEdit` reads the current file content (missing file ⇒ empty), builds
the new content, ensures the directory exists and writes the whole file
back.  The content computation (lines 246–271 of `agent.ts`) is the pure
core modelled here; an `.error` value models the thrown
"Original snippet not found in file". -/

structure Proposal where
  file : Str
  original : Str
  replacement : Str
  lineNumber : Option Int
  explanation : Str
  deriving DecidableEq, Repr

/-- The fallback branch of `applyEdit`: whole-file `indexOf` search for
`original`, replacing its first occurrence. -/
def applyEditFallback (original replacement content : Str) : Except Str Str :=
  match strIndexOf content original with
  | none => .error (str "Original snippet not found in file")
  | some idx =>
    .ok (content.take idx ++ replacement ++ content.drop (idx + original.length))

/-- The new-content computation of `applyEdit`.  `lineNumber = none` is
the append branch; otherwise the addressed line is looked up (JavaScript
`lines[lineNumber - 1]`, `undefined` when out of range) and the guard is
the JavaScript truthiness test `targetLine && targetLine.includes(original)`:
an existing but *empty* addressed line is falsy and also takes the
fallback. -/
def applyEditContent (original replacement : Str) (lineNumber : Option Int)
    (content : Str) : Except Str Str :=
  match lineNumber with
  | none =>
    let needsNl : Str := if content ≠ [] && !endsWithStr content (str "\n") then str "\n" else []
    .ok (content ++ needsNl ++ replacement ++ str "\n")
  | some n =>
    let lines := splitOnChar '\n' content
    match getAt lines (n - 1) with
    | some targetLine =>
      if targetLine ≠ [] && containsStr targetLine original then
        .ok (joinWith '\n' (setAt lines (n - 1) (replaceFirst targetLine original replacement)))
      else applyEditFallback original replacement content
    | none => applyEditFallback original replacement content

example : applyEditContent (str "old code") (str "new code") (some 1)
    (str "old code\nrest") = .ok (str "new code\nrest") := by rfl
example : applyEditContent (str "zz") (str "new") (some 1) (str "ab\ncd")
    = .error (str "Original snippet not found in file") := by rfl
example : applyEditContent [] (str "X") (some 1) (str "ab\ncd")
    = .ok (str "Xab\ncd") := by rfl
example : applyEditContent [] (str "X") (some 1) (str "\ncd")
    = .ok (str "X\ncd") := by rfl
example : applyEditContent [] (str "X") (some 5) (str "ab\ncd")
    = .ok (str "Xab\ncd") := by rfl

/-! ## `src/commands/validation.ts` — `validateEdit`

`validateEdit` does a readability probe when `lineNumber` is set, then
file-type–specific checks, then generic safety checks.  The two external
effects — whether `readFile` succeeds and whether `JSON.parse` succeeds —
are oracle inputs; every decision taken on them is translated. -/

structure ValidationResult where
  isValid : Bool
  errors : List Str
  warnings : List Str
  deriving DecidableEq, Repr

/-- Digits of a natural number, for messages interpolating `${i + 1}`. -/
def natToStr (n : Nat) : Str := Nat.toDigits 10 n

/-- `path.basename` (POSIX): last segment after stripping trailing
separators; a path of only separators keeps one. -/
def basenameStr (p : Str) : Str :=
  let t := (p.reverse.dropWhile (· = '/')).reverse
  if t = [] then p
  else ((splitOnChar '/' t).getLast?).getD []

/-- `path.extname` (POSIX): from the last `.` of the basename to the end;
empty when the basename has no dot or only a leading dot. -/
def extnameStr (p : Str) : Str :=
  let base := basenameStr p
  match base.reverse.findIdx? (· = '.') with
  | none => []
  | some j =>
    let i := base.length - 1 - j
    if i = 0 then [] else base.drop i

/-- `getFileType` from `validation.ts` (narrower than the search one). -/
def getFileTypeV (filePath : Str) : Str :=
  let ext := toLowerStr (extnameStr filePath)
  let fileName := toLowerStr (basenameStr filePath)
  if containsStr fileName (str "config") || fileName = str ".gitignore"
      || fileName = str ".env" then str "config"
  else if ext ∈ [str ".ts", str ".js", str ".tsx", str ".jsx"] then str "javascript"
  else if ext = str ".py" then str "python"
  else if ext = str ".json" then str "json"
  else str "unknown"

/-- Matching close bracket, as the `brackets` object of `validateJavaScript`. -/
def closingBracket (c : Char) : Char :=
  if c = '{' then '}' else if c = '[' then ']' else ')'

/-- The bracket loop of `validateJavaScript`: JavaScript array `push`/`pop`
act on the stack top (modelled as the list head).  Returns whether the
loop `break`-ed on a mismatch, together with the remaining stack. -/
def bracketScan : Str → List Char → Bool × List Char
  | [], stack => (false, stack)
  | c :: rest, stack =>
    if c ∈ ['{', '[', '('] then bracketScan rest (c :: stack)
    else if c ∈ ['}', ']', ')'] then
      match stack with
      | [] => (true, [])
      | last :: stack₁ =>
        if closingBracket last = c then bracketScan rest stack₁
        else (true, stack₁)
    else bracketScan rest stack

/-- `validateJavaScript`: bracket errors plus the import warning. -/
def validateJavaScript (replacement : Str) : List Str × List Str :=
  let scan := bracketScan replacement []
  let errors :=
    (if scan.1 then [str "Unmatched brackets detected"] else [])
      ++ (if scan.2 ≠ [] then [str "Unclosed brackets detected"] else [])
  let warnings :=
    if containsStr replacement (str "import")
        && !containsStr replacement (str "from")
        && !containsStr replacement (str "require") then
      [str "Import statement may be incomplete"]
    else []
  (errors, warnings)

/-- `validatePython`: warn when an unindented line follows a line ending
in `:`.  `line.match(/^[^ \t]/)` succeeds iff the line is nonempty and
starts with neither space nor tab. -/
def validatePython (replacement : Str) : List Str :=
  let lines := splitOnChar '\n' replacement
  (List.range lines.length).filterMap fun i =>
    let line := lines.getD i []
    if trimStr line ≠ []
        && (match line with
            | [] => false
            | c :: _ => c ≠ ' ' && c ≠ '\t') then
      match i with
      | 0 => none
      | j + 1 =>
        let prevLine := lines.getD (j + 1 - 1) []
        if prevLine ≠ [] && endsWithStr (trimStr prevLine) (str ":") then
          some (str "Line " ++ natToStr (i + 1) ++ str " may need indentation")
        else none
    else none

/-- `validateConfig`: `.gitignore` backslash warnings. -/
def validateConfig (file replacement : Str) : List Str :=
  if endsWithStr file (str ".gitignore") then
    (splitOnChar '\n' replacement).filterMap fun pattern =>
      if trimStr pattern ≠ [] && containsStr pattern (str "\\") then
        some (str "Backslashes in .gitignore patterns may not work as expected")
      else none
  else []

/-- The `dangerous` denylist shared by `validateSafetyChecks` and the
service-level `preflight`. -/
def dangerousSnippets : List Str :=
  [str "rm -rf", str "sudo", str "DELETE FROM", str "DROP TABLE"]

/-- `validateSafetyChecks`: case-sensitive denylist errors plus the
large-change warning. -/
def validateSafetyChecks (replacement : Str) : List Str × List Str :=
  let errors := dangerousSnippets.filterMap fun danger =>
    if containsStr replacement danger then
      some (str "Potentially dangerous operation detected: " ++ danger)
    else none
  let warnings :=
    if replacement.length > 10000 then
      [str "Very large change detected - please review carefully"]
    else []
  (errors, warnings)

/-- `validateEdit` from `src/commands/validation.ts`.  `fileReadable`
models whether `readFile(edit.file)` succeeds; `jsonOk` models whether
`JSON.parse(edit.replacement)` succeeds.  `isValid` is `false` exactly
when some error was pushed. -/
def validateEdit (fileReadable jsonOk : Str → Bool) (edit : Proposal) :
    ValidationResult :=
  match edit.lineNumber with
  | some _ =>
    if fileReadable edit.file then validateEditBody jsonOk edit
    else
      ⟨false,
       [str "File " ++ edit.file ++ str " does not exist or is not readable"],
       []⟩
  | none => validateEditBody jsonOk edit
where
  /-- The part after the readability probe: the file-type switch followed
  by the generic safety checks, accumulating errors and warnings. -/
  validateEditBody (jsonOk : Str → Bool) (edit : Proposal) : ValidationResult :=
    let fileType := getFileTypeV edit.file
    let typed : List Str × List Str :=
      if fileType = str "javascript" then validateJavaScript edit.replacement
      else if fileType = str "python" then ([], validatePython edit.replacement)
      else if fileType = str "config" then ([], validateConfig edit.file edit.replacement)
      else if fileType = str "json" then
        (if jsonOk edit.replacement then [] else [str "Invalid JSON syntax"], [])
      else ([], [])
    let safety := validateSafetyChecks edit.replacement
    let errors := typed.1 ++ safety.1
    ⟨errors = [], errors, typed.2 ++ safety.2⟩

/-! ## Service-level `preflight` (proposal validator service)

`preflight` resolves the proposal path against the project root with
`path.resolve` and rejects it when the resolved string does not *start
with* the root — a string-prefix test, not a path-descendant test — then
scans the replacement (lowercased) for the denylist. -/

/-- `path.resolve` against an absolute working directory: join, then
normalise `.`/`..`/empty segments. -/
def resolvePath (cwd file : Str) : Str :=
  let combined := if startsWithStr file (str "/") then file else cwd ++ str "/" ++ file
  let segs := (splitOnChar '/' combined).foldl
    (fun acc seg =>
      if seg = [] || seg = str "." then acc
      else if seg = str ".." then acc.dropLast
      else acc ++ [seg])
    []
  str "/" ++ joinWith '/' segs

/-- `preflight` from the proposal validator service: `none` means the
proposal passed preflight and is delegated to the external validator. -/
def preflight (cwd : Str) (edit : Proposal) : Option ValidationResult :=
  let resolved := resolvePath cwd edit.file
  if !startsWithStr resolved cwd then
    some ⟨false, [str "File path escapes project root: " ++ edit.file], []⟩
  else
    match dangerousSnippets.find?
        (fun d => containsStr (toLowerStr edit.replacement) (toLowerStr d)) with
    | some hit =>
      some ⟨false, [str "Potentially dangerous operation detected: " ++ hit], []⟩
    | none => none

example : preflight (str "/proj") ⟨str "../outside/x.ts", [], [], none, []⟩
    = some ⟨false, [str "File path escapes project root: " ++ str "../outside/x.ts"], []⟩ := by rfl
example : preflight (str "/proj") ⟨str "/projX/x.ts", [], [], none, []⟩ = none := by rfl
example : validateEdit (fun _ => true) (fun _ => true)
    ⟨str "../outside/project.ts", [], str "malicious code", none, str "bad path"⟩
    = ⟨true, [], []⟩ := by rfl

/-! ## `src/commands/search.ts` — relevance scoring and ranking

`searchCodebase` scans files (external reads, modelled as a
`(path, content)` list already filtered the way `includeByPlan` filters),
scores every line with `calculateRelevance`, sorts descending by score,
keeps the top 30, optionally lets an external reranker scale each score
by `0.5 + r` (scores therefore become rationals), re-sorts, and replaces
a weak result with a synthetic new-file match.  The planner and reranker
are LLM calls, modelled as inputs. -/

structure SearchMatch where
  file : Str
  line : Str
  lineNumber : Int
  fileType : Str
  relevanceScore : Rat
  deriving DecidableEq, Repr

structure SearchOptions where
  action : Str
  target : Str
  description : Str
  filenameKeywords : List Str
  contentKeywords : List Str
  deriving DecidableEq, Repr

/-- Lowercase-ASCII letters and digits, the `[a-z0-9]` class of the
tokenising regex. -/
def isAlnumLower (c : Char) : Bool :=
  ('a' ≤ c && c ≤ 'z') || ('0' ≤ c && c ≤ '9')

/-- Split on every character failing `keep` (one piece per boundary). -/
def splitOnPred (keep : Char → Bool) : Str → List Str
  | [] => [[]]
  | x :: xs =>
    match splitOnPred keep xs with
    | [] => [[]]
    | y :: ys => if keep x then (x :: y) :: ys else [] :: y :: ys

/-- JavaScript `s.split(/[^a-z0-9]+/g)` composed with the
`filter(Boolean)` that always follows it in the source: the regex
collapses separator runs, which differs from the single-character split
only by extra empty pieces, and those are removed by the filter. -/
def alnumTokens (s : Str) : List Str :=
  (splitOnPred isAlnumLower s).filter (· ≠ [])

/-- The token list of `calculateRelevance`: target and description are
lowercased and tokenised; planner keywords are appended as-is. -/
def relevanceTokens (opts : SearchOptions) : List Str :=
  (alnumTokens (toLowerStr opts.target) ++ alnumTokens (toLowerStr opts.description)
    ++ opts.filenameKeywords ++ opts.contentKeywords).filter (· ≠ [])

/-- Per-token hit count: +1 for a line hit, +2 for a path hit, +1 for a
basename prefix/`token.` hit. -/
def tokenHits (lowerLine lowerFile fileBase : Str) (t : Str) : Nat :=
  (if containsStr lowerLine t then 1 else 0)
    + (if containsStr lowerFile t then 2 else 0)
    + (if startsWithStr fileBase t || containsStr fileBase (t ++ str ".") then 1 else 0)

/-- Total hit count over all tokens. -/
def hitsCount (line file : Str) (opts : SearchOptions) : Nat :=
  ((relevanceTokens opts).map
    (tokenHits (toLowerStr line) (toLowerStr file) (toLowerStr (basenameStr file)))).sum

/-- The trailing-marker test `/\.test\.[a-z0-9]+$/` (resp. `spec`): the
maximal trailing `[a-z0-9]` run is nonempty and is preceded by
`".test."`. -/
def dotMarkerSuffix (marker : Str) (base : Str) : Bool :=
  let run := (base.reverse.takeWhile isAlnumLower).reverse
  run ≠ [] && endsWithStr (base.take (base.length - run.length))
    (str "." ++ marker ++ str ".")

/-- The test/fixture/evaluation path penalty predicate. -/
def isTestLikePath (lowerFile fileBase : Str) : Bool :=
  containsStr lowerFile (str "/__tests__/")
    || containsStr lowerFile (str "/tests/")
    || containsStr lowerFile (str "/e2e/")
    || containsStr lowerFile (str "/fixtures/")
    || containsStr lowerFile (str "/mocks/")
    || containsStr lowerFile (str "/src/evaluations/")
    || dotMarkerSuffix (str "test") fileBase
    || dotMarkerSuffix (str "spec") fileBase

/-- `calculateRelevance` from `src/commands/search.ts`: +10 for a
case-insensitive keyword hit, +20 for a case-sensitive one, +3 per token
hit, +30 for the target appearing in the path, −40 for test-like paths. -/
def calculateRelevance (line keyword file : Str) (opts : SearchOptions) : Int :=
  let lowerLine := toLowerStr line
  let lowerKeyword := toLowerStr keyword
  let lowerFile := toLowerStr file
  let fileBase := toLowerStr (basenameStr file)
  (if containsStr lowerLine lowerKeyword then (10 : Int) else 0)
    + (if containsStr line keyword then 20 else 0)
    + (hitsCount line file opts : Int) * 3
    + (if opts.target ≠ [] && containsStr lowerFile (toLowerStr opts.target) then 30 else 0)
    - (if isTestLikePath lowerFile fileBase then 40 else 0)

/-- `getFileType` from `search.ts` (wider than the validation one). -/
def getFileTypeS (filePath : Str) : Str :=
  let ext := toLowerStr (extnameStr filePath)
  let fileName := toLowerStr (basenameStr filePath)
  if containsStr fileName (str "config") || containsStr fileName (str ".env")
      || fileName = str ".gitignore" || fileName = str "package.json"
      || fileName = str "tsconfig.json" then str "config"
  else if ext ∈ [str ".ts", str ".js", str ".tsx", str ".jsx"] then str "javascript"
  else if ext = str ".py" then str "python"
  else if ext = str ".java" then str "java"
  else if ext ∈ [str ".cpp", str ".c", str ".h"] then str "cpp"
  else if ext ∈ [str ".md", str ".txt"] then str "documentation"
  else if ext ∈ [str ".json", str ".yaml", str ".yml", str ".toml"] then str "data"
  else str "unknown"

/-- The per-file line scan of `searchCodebase`: score each line, keep
positive scores, record the trimmed line and 1-based line number. -/
def collectMatches (files : List (Str × Str)) (includeByPlan : Str → Bool)
    (keyword : Str) (opts : SearchOptions) : List SearchMatch :=
  files.flatMap fun fc =>
    if includeByPlan fc.1 then
      ((splitOnChar '\n' fc.2).mapIdx fun idx line => (idx, line)).filterMap
        fun il =>
          let relevance := calculateRelevance il.2 keyword fc.1 opts
          if relevance > 0 then
            some ⟨fc.1, trimStr il.2, (il.1 : Int) + 1, getFileTypeS fc.1,
                  (relevance : Rat)⟩
          else none
    else []

/-- The descending sort `(a, b) => b.relevanceScore - a.relevanceScore`
(a stable sort, descending by score). -/
def sortByScoreDesc (ms : List SearchMatch) : List SearchMatch :=
  ms.mergeSort fun a b => b.relevanceScore ≤ a.relevanceScore

/-- The optional reranking step: when more than one preliminary match
exists, each score is scaled by `0.5 + r i` with `r` the external
reranker's figure for index `i` (a failed rerank call leaves scores
unchanged, i.e. behaves as `r = fun _ => 1/2`). -/
def rerankApply (prelim : List SearchMatch) (r : Nat → Rat) : List SearchMatch :=
  if prelim.length > 1 then
    prelim.mapIdx fun i m => {m with relevanceScore := m.relevanceScore * (1/2 + r i)}
  else prelim

/-- `searchCodebase` after the external planner and reranker inputs are
fixed: scan, sort descending, keep 30, rerank, re-sort, and fall back to
a synthetic new-file match when the best score is below 20. -/
def searchCodebaseModel (files : List (Str × Str)) (includeByPlan : Str → Bool)
    (keyword : Str) (opts : SearchOptions) (r : Nat → Rat)
    (newFileCandidate : Option Str) (cwd : Str) : List SearchMatch :=
  let scored := collectMatches files includeByPlan keyword opts
  let prelim := (sortByScoreDesc scored).take 30
  let finalMatches := sortByScoreDesc (rerankApply prelim r)
  let weak := match finalMatches with
    | [] => true
    | m :: _ => m.relevanceScore < 20
  if weak then
    match newFileCandidate with
    | some candidate =>
      [⟨cwd ++ str "/" ++ candidate, [], 1, getFileTypeS candidate, 100⟩]
    | none => finalMatches
  else finalMatches

/-! ## `src/cli.ts` — compound actions

The compound branch first iterates the steps, accumulating pending shell
commands and validated proposals, `return`ing out of the whole
interaction on the first unsafe command, empty search result or failed
validation.  Only after every step succeeded does it present the pending
commands and the consolidated proposals and ask for confirmation; on
"yes" it runs the commands in order (a non-zero exit is reported and the
loop `continue`s) and then applies all edits.  The observable behaviour
is modelled as a trace of events; LLM calls, searches, command execution
and `applyEdit` outcomes are oracle inputs. -/

inductive StepAction where
  | add_code
  | modify_code
  | shell_command
  deriving DecidableEq, Repr

structure CompoundStep where
  action : StepAction
  target : Str
  description : Str
  command : Option Str
  deriving DecidableEq, Repr

inductive CompoundEvent where
  | ranCommand (cmd : Str) (exitCode : Int)
  | changedDir (target : Str)
  | cdFailed (cmd : Str)
  | presentedCommands (cmds : List Str)
  | presentedProposals (ps : List Proposal)
  | appliedEdit (p : Proposal)
  deriving DecidableEq, Repr

/-- The oracles feeding the compound branch: search results, proposal
generation and revision, per-proposal validation (`validateEdits` is the
index-aligned batch form), command exit codes, `cd` target resolution,
`process.chdir` success, and the second confirmation after a revision. -/
structure CompoundOracles where
  search : CompoundStep → List SearchMatch
  propose : CompoundStep → SearchMatch → List Proposal
  validate : Proposal → ValidationResult
  exec : Str → Int
  resolveNav : Str → Option Str
  chdirOk : Str → Bool
  revise : Str → CompoundStep → SearchMatch → List Proposal
  revisionConfirm : Bool

/-- Modelled from the spec: `validateEdits` is imported by `cli.ts` from
`./commands/validation` but its definition is not among the provided
sources; per §4.3 it returns one result per input proposal, order
preserved, so it is the index-aligned map of a per-proposal validator. -/
def validateEdits (validate : Proposal → ValidationResult)
    (proposals : List Proposal) : List ValidationResult :=
  proposals.map validate

/-- The shell-step guard `step.action === "shell_command" && step.command`:
the command must be present *and* non-empty (truthiness); otherwise the
step falls through to the search path. -/
def stepShellCommand? (step : CompoundStep) : Option Str :=
  match step.action, step.command with
  | .shell_command, some c => if c = [] then none else some c
  | _, _ => none

inductive AbortReason where
  | unsafeCommand (reason : Str)
  | noMatches
  | validationFailed
  deriving DecidableEq, Repr

/-- The accumulator of the step loop. -/
structure StepAcc where
  aggregatedProposals : List Proposal
  stepMatches : List (CompoundStep × SearchMatch)
  pendingCommands : List Str
  warningsList : List (List Str)
  deriving Repr

/-- The step loop of the compound branch (`for (const step of
intent.steps)`): `.error` models the `return` statements that abort the
whole compound action before anything is presented or written. -/
def processSteps (O : CompoundOracles) :
    List CompoundStep → StepAcc → Except AbortReason StepAcc
  | [], acc => .ok acc
  | step :: rest, acc =>
    match stepShellCommand? step with
    | some cmd =>
      let safetyCheck := isCommandSafe cmd
      if safetyCheck.safe then
        processSteps O rest { acc with pendingCommands := acc.pendingCommands ++ [cmd] }
      else .error (.unsafeCommand (safetyCheck.reason.getD []))
    | none =>
      match O.search step with
      | [] => .error .noMatches
      | m :: _ =>
        let proposals := O.propose step m
        let stepValidations := validateEdits O.validate proposals
        if stepValidations.any (fun v => !v.isValid) then .error .validationFailed
        else
          processSteps O rest
            { aggregatedProposals := acc.aggregatedProposals ++ proposals
              stepMatches := acc.stepMatches ++ [(step, m)]
              pendingCommands := acc.pendingCommands
              warningsList := acc.warningsList
                ++ (stepValidations.filter (fun v => v.warnings ≠ [])).map (·.warnings) }

/-- The `cd`-only test `/^cd\s+[^&|;]+$/i` applied to the trimmed
command: `cd` case-insensitively, one whitespace character, then a
nonempty remainder free of `&`, `|`, `;` (the regex decomposition
`\s+[^&|;]+` matches exactly these strings). -/
def isCdOnly (s : Str) : Bool :=
  match s with
  | c0 :: c1 :: c2 :: rest =>
    Char.toLower c0 = 'c' && Char.toLower c1 = 'd' && isWsChar c2
      && rest ≠ [] && rest.all fun c => c ≠ '&' && c ≠ '|' && c ≠ ';'
  | _ => false

/-- The `cd` handling inside the accept loop: resolve the navigation
target; on success `process.chdir` (and reset the search cache); each
failure is reported and the loop continues. -/
def cdEvents (O : CompoundOracles) (trimmedCmd : Str) : List CompoundEvent :=
  match O.resolveNav trimmedCmd with
  | none => [.cdFailed trimmedCmd]
  | some target => if O.chdirOk target then [.changedDir target] else [.cdFailed trimmedCmd]

/-- The command loop of the accept branch: `cd`-only commands get the
navigation treatment; every other command is executed interactively, and
a non-zero exit is reported after which the loop `continue`s with the
next command. -/
def runPendingCommands (O : CompoundOracles) : List Str → List CompoundEvent
  | [] => []
  | cmd :: rest =>
    (let trimmedCmd := trimStr cmd
     if isCdOnly trimmedCmd then cdEvents O trimmedCmd
     else [.ranCommand cmd (O.exec cmd)])
      ++ runPendingCommands O rest

/-- `applyEdits` applies sequentially; a failing `applyEdit` throws,
which ends the loop with the earlier edits already written
(`applyOk p = false` models a throw while applying `p`). -/
def applyEditsTrace (applyOk : Proposal → Bool) : List Proposal → List CompoundEvent
  | [] => []
  | p :: rest =>
    if applyOk p then .appliedEdit p :: applyEditsTrace applyOk rest else []

/-- The `fb === "yes"` branch: run all pending commands, then apply all
aggregated proposals. -/
def acceptPhase (O : CompoundOracles) (applyOk : Proposal → Bool)
    (pendingCommands : List Str) (proposals : List Proposal) : List CompoundEvent :=
  runPendingCommands O pendingCommands ++ applyEditsTrace applyOk proposals

/-- The user's answer at the consolidated review (empty input counts as
"yes" in the source). -/
inductive Feedback where
  | yes
  | no
  | critique (text : Str)

/-- The full compound branch as a trace of observable events: step loop,
then (on success only) presentation of pending commands and proposals,
then the accept / reject / critique handling. -/
def compoundTrace (O : CompoundOracles) (applyOk : Proposal → Bool)
    (fb : Feedback) (steps : List CompoundStep) : List CompoundEvent :=
  match processSteps O steps ⟨[], [], [], []⟩ with
  | .error _ => []
  | .ok acc =>
    (if acc.pendingCommands ≠ [] then [.presentedCommands acc.pendingCommands] else [])
      ++ (if acc.aggregatedProposals ≠ [] then [.presentedProposals acc.aggregatedProposals] else [])
      ++ match fb with
         | .yes => acceptPhase O applyOk acc.pendingCommands acc.aggregatedProposals
         | .no => []
         | .critique text =>
           let revisedAll := acc.stepMatches.flatMap fun sm => O.revise text sm.1 sm.2
           let revisedValidations := validateEdits O.validate revisedAll
           if revisedValidations.any (fun v => !v.isValid) then []
           else
             .presentedProposals revisedAll
               :: (if O.revisionConfirm then applyEditsTrace applyOk revisedAll else [])

/-! ## Lemmas about the string model -/

theorem strIndexOf_isSome_iff (s pat : Str) :
    (strIndexOf s pat).isSome = true ↔ pat <:+: s := by
  induction s with
  | nil =>
    rw [strIndexOf]
    by_cases h : pat.isPrefixOf ([] : Str)
    · simp only [if_pos h, Option.isSome_some, true_iff]
      exact (List.isPrefixOf_iff_prefix.mp h).isInfix
    · rw [if_neg h]
      apply iff_of_false (by simp)
      intro hinf
      rw [List.infix_nil] at hinf
      subst hinf
      exact h (List.isPrefixOf_iff_prefix.mpr List.prefix_rfl)
  | cons x t ih =>
    rw [strIndexOf]
    by_cases h : pat.isPrefixOf (x :: t)
    · simp only [if_pos h, Option.isSome_some, true_iff]
      exact (List.isPrefixOf_iff_prefix.mp h).isInfix
    · have hmap : ((strIndexOf t pat).map (· + 1)).isSome = (strIndexOf t pat).isSome := by
        cases strIndexOf t pat <;> rfl
      simp only [if_neg h]
      rw [hmap, ih, List.infix_cons_iff]
      constructor
      · exact Or.inr
      · rintro (hp | hi)
        · exact absurd (List.isPrefixOf_iff_prefix.mpr hp) h
        · exact hi

theorem containsStr_iff_occurs (s pat : Str) :
    containsStr s pat = true ↔ pat <:+: s := by
  rw [containsStr]; exact strIndexOf_isSome_iff s pat

theorem containsStr_map (f : Char → Char) {s pat : Str}
    (h : containsStr s pat = true) :
    containsStr (s.map f) (pat.map f) = true := by
  rw [containsStr_iff_occurs] at h ⊢
  exact h.map f

theorem containsStr_toLower {s pat : Str} (h : containsStr s pat = true) :
    containsStr (toLowerStr s) (toLowerStr pat) = true :=
  containsStr_map Char.toLower h

theorem ne_nil_of_containsStr {s pat : Str} (h : containsStr s pat = true)
    (hp : pat ≠ []) : s ≠ [] := by
  rintro rfl
  rw [containsStr_iff_occurs, List.infix_nil] at h
  exact hp h

theorem mem_of_containsStr {s pat : Str} (h : containsStr s pat = true)
    {c : Char} (hc : c ∈ pat) : c ∈ s :=
  ((containsStr_iff_occurs s pat).mp h).subset hc

theorem strIndexOf_nil_pat (s : Str) : strIndexOf s [] = some 0 := by
  cases s with
  | nil => rfl
  | cons x t => rfl

theorem containsStr_nil_pat (s : Str) : containsStr s [] = true := by
  rw [containsStr, strIndexOf_nil_pat]; rfl

theorem replaceFirst_nil_pat (s rep : Str) : replaceFirst s [] rep = rep ++ s := by
  rw [replaceFirst, strIndexOf_nil_pat]
  simp

theorem mem_replaceFirst {s pat rep : Str} {c : Char}
    (h : c ∈ replaceFirst s pat rep) : c ∈ s ∨ c ∈ rep := by
  rw [replaceFirst] at h
  cases hio : strIndexOf s pat with
  | none => rw [hio] at h; exact Or.inl h
  | some i =>
    rw [hio] at h
    rcases List.mem_append.mp h with h₁ | h₂
    · rcases List.mem_append.mp h₁ with h₃ | h₄
      · exact Or.inl (List.mem_of_mem_take h₃)
      · exact Or.inr h₄
    · exact Or.inl (List.mem_of_mem_drop h₂)

/-! ### `splitOnChar` / `joinWith` -/

theorem splitOnChar_ne_nil (c : Char) (s : Str) : splitOnChar c s ≠ [] := by
  induction s with
  | nil => simp [splitOnChar]
  | cons x xs ih =>
    rw [splitOnChar]
    cases h : splitOnChar c xs with
    | nil => exact absurd h ih
    | cons y ys => by_cases hx : x = c <;> simp [hx]

theorem joinWith_splitOnChar (c : Char) (s : Str) :
    joinWith c (splitOnChar c s) = s := by
  induction s with
  | nil => rfl
  | cons x xs ih =>
    rw [splitOnChar]
    cases h : splitOnChar c xs with
    | nil => exact absurd h (splitOnChar_ne_nil c xs)
    | cons y ys =>
      rw [h] at ih
      by_cases hx : x = c
      · subst hx
        simp only [if_pos rfl]
        cases ys with
        | nil => simpa [joinWith] using ih
        | cons z zs => simpa [joinWith] using ih
      · simp only [if_neg hx]
        cases ys with
        | nil => simpa [joinWith] using congrArg (x :: ·) ih
        | cons z zs => simpa [joinWith] using congrArg (x :: ·) ih

theorem splitOnChar_no_sep {c : Char} {p : Str} (h : c ∉ p) :
    splitOnChar c p = [p] := by
  induction p with
  | nil => rfl
  | cons x xs ih =>
    have hx : x ≠ c := fun he => h (he ▸ List.mem_cons_self x xs)
    have hxs : c ∉ xs := fun hm => h (List.mem_cons_of_mem x hm)
    rw [splitOnChar, ih hxs]
    simp [hx]

theorem splitOnChar_append_sep {c : Char} {p : Str} (h : c ∉ p) (s : Str) :
    splitOnChar c (p ++ c :: s) = p :: splitOnChar c s := by
  induction p with
  | nil =>
    rw [List.nil_append, splitOnChar]
    cases hs : splitOnChar c s with
    | nil => exact absurd hs (splitOnChar_ne_nil c s)
    | cons y ys => simp
  | cons x xs ih =>
    have hx : x ≠ c := fun he => h (he ▸ List.mem_cons_self x xs)
    have hxs : c ∉ xs := fun hm => h (List.mem_cons_of_mem x hm)
    rw [List.cons_append, splitOnChar, ih hxs]
    simp [hx]

theorem splitOnChar_joinWith {c : Char} {ps : List Str}
    (h : ∀ p ∈ ps, c ∉ p) (hne : ps ≠ []) :
    splitOnChar c (joinWith c ps) = ps := by
  induction ps with
  | nil => exact absurd rfl hne
  | cons p rest ih =>
    cases rest with
    | nil =>
      rw [joinWith]
      exact splitOnChar_no_sep (h p (List.mem_cons_self p []))
    | cons q qs =>
      rw [joinWith, splitOnChar_append_sep (h p (List.mem_cons_self p _))]
      rw [ih (fun p hp => h p (List.mem_cons_of_mem _ hp)) (List.cons_ne_nil q qs)]
      exact List.cons_ne_nil q qs

/-! ### `trimStr` -/

theorem occurs_dropWhile {q : Char → Bool} {p s : Str}
    (hall : ∀ x ∈ p, q x = false) (hp : p ≠ []) (hinf : p <:+: s) :
    p <:+: s.dropWhile q := by
  obtain ⟨a, b, rfl⟩ := hinf
  induction a with
  | nil =>
    obtain ⟨x, p', rfl⟩ := List.exists_cons_of_ne_nil hp
    rw [List.nil_append, List.cons_append, List.dropWhile_cons,
        hall x (List.mem_cons_self x p')]
    simp only [Bool.false_eq_true, if_false]
    exact ⟨[], b, rfl⟩
  | cons a₀ a' ih =>
    have hassoc : (a₀ :: a') ++ p ++ b = a₀ :: (a' ++ p ++ b) := by simp
    rw [hassoc, List.dropWhile_cons]
    by_cases hq : q a₀
    · rw [if_pos hq]; exact ih
    · rw [if_neg hq]
      exact ⟨a₀ :: a', b, by simp⟩

theorem occurs_trimStr {p s : Str} (hall : ∀ x ∈ p, isWsChar x = false)
    (hp : p ≠ []) (hinf : p <:+: s) : p <:+: trimStr s := by
  have h1 : p <:+: s.dropWhile isWsChar := occurs_dropWhile hall hp hinf
  have h2 : p.reverse <:+: (s.dropWhile isWsChar).reverse :=
    List.reverse_infix.mpr h1
  have h3 : p.reverse <:+: (s.dropWhile isWsChar).reverse.dropWhile isWsChar :=
    occurs_dropWhile (fun x hx => hall x (List.mem_reverse.mp hx))
      (by simpa using hp) h2
  have h4 : p.reverse <:+:
      (((s.dropWhile isWsChar).reverse.dropWhile isWsChar).reverse).reverse := by
    simpa using h3
  exact List.reverse_infix.mp h4

theorem trimStr_ne_nil_of_occurs {p s : Str}
    (hall : ∀ x ∈ p, isWsChar x = false) (hp : p ≠ []) (hinf : p <:+: s) :
    trimStr s ≠ [] := by
  intro h0
  have := occurs_trimStr hall hp hinf
  rw [h0, List.infix_nil] at this
  exact hp this

theorem trimStr_head_not_ws {s : Str} (h : trimStr s ≠ []) :
    ∃ x t, trimStr s = x :: t ∧ isWsChar x = false := by
  obtain ⟨x, t, hxt⟩ := List.exists_cons_of_ne_nil h
  refine ⟨x, t, hxt, ?_⟩
  have hv_ne : (s.dropWhile isWsChar).reverse.dropWhile isWsChar ≠ [] := by
    intro hv0
    apply h
    show ((s.dropWhile isWsChar).reverse.dropWhile isWsChar).reverse = []
    rw [hv0]; rfl
  have hu_ne : s.dropWhile isWsChar ≠ [] := by
    intro hu0
    apply hv_ne
    rw [hu0]; rfl
  -- the head of the trimmed string is the last of the twice-dropped list
  have hv : (s.dropWhile isWsChar).reverse.dropWhile isWsChar = t.reverse ++ [x] := by
    have h1 : ((s.dropWhile isWsChar).reverse.dropWhile isWsChar).reverse = x :: t := hxt
    calc (s.dropWhile isWsChar).reverse.dropWhile isWsChar
        = (((s.dropWhile isWsChar).reverse.dropWhile isWsChar).reverse).reverse := by
          rw [List.reverse_reverse]
      _ = (x :: t).reverse := by rw [h1]
      _ = t.reverse ++ [x] := by simp
  have hxl : ((s.dropWhile isWsChar).reverse.dropWhile isWsChar).getLast? = some x := by
    rw [hv]; exact List.getLast?_concat _
  obtain ⟨w, hw⟩ := List.dropWhile_suffix (l := (s.dropWhile isWsChar).reverse) isWsChar
  have hxl2 : ((s.dropWhile isWsChar).reverse).getLast? = some x := by
    rw [← hw, List.getLast?_append_of_ne_nil w hv_ne]
    exact hxl
  have hhead : (s.dropWhile isWsChar).head? = some x := by
    rw [← List.getLast?_reverse]
    exact hxl2
  have hx : (s.dropWhile isWsChar).head hu_ne = x := by
    have := List.head?_eq_head hu_ne
    rw [hhead] at this
    exact (Option.some_injective _ this).symm
  rw [← hx]
  exact List.head_dropWhile_not isWsChar s hu_ne

/-! ### Classifier lemmas -/

theorem splitOnChar_headD_ne_nil {x : Char} (t : Str) (hx : x ≠ ' ') :
    (splitOnChar ' ' (x :: t)).headD [] ≠ [] := by
  rw [splitOnChar]
  cases hsp : splitOnChar ' ' t with
  | nil => exact absurd hsp (splitOnChar_ne_nil ' ' t)
  | cons y ys => simp [hx]

theorem containsStr_dangerousReason (base : Str) :
    containsStr (dangerousReason base) base = true := by
  rw [containsStr_iff_occurs, dangerousReason]
  exact ⟨str "Command '", str "' is potentially dangerous", rfl⟩

theorem dangerousReason_ne_notAllowedReason (base : Str) :
    dangerousReason base ≠ notAllowedReason base := by
  intro he
  rw [dangerousReason, notAllowedReason] at he
  have h1 := List.append_cancel_left he
  exact absurd h1 (by decide)

theorem isCommandSafe_dangerous {command : Str}
    (h : baseToken command ∈ DANGEROUS_COMMANDS) :
    isCommandSafe command = ⟨false, some (dangerousReason (baseToken command))⟩ := by
  have hcmd : command ≠ [] := by
    rintro rfl
    exact absurd h (by decide)
  have htrim : trimStr command ≠ [] := by
    intro h0
    rw [baseToken, h0] at h
    exact absurd h (by decide)
  have hbase : baseToken command ≠ [] := by
    intro h0
    rw [h0] at h
    exact absurd h (by decide)
  rw [baseToken] at h hbase
  simp only [isCommandSafe]
  rw [if_neg hcmd, if_neg htrim, if_neg hbase, if_pos h, baseToken]

theorem isCommandSafe_chaining {command : Str}
    (hop : containsChainOp command = true)
    (hnd : baseToken command ∉ DANGEROUS_COMMANDS) :
    isCommandSafe command = ⟨false, some chainingReason⟩ := by
  have hops : ∃ op : Str,
      (op = str "&&" ∨ op = str "||" ∨ op = str ";")
        ∧ containsStr command op = true := by
    rw [containsChainOp, Bool.or_eq_true, Bool.or_eq_true] at hop
    rcases hop with (h1 | h2) | h3
    · exact ⟨str "&&", Or.inl rfl, h1⟩
    · exact ⟨str "||", Or.inr (Or.inl rfl), h2⟩
    · exact ⟨str ";", Or.inr (Or.inr rfl), h3⟩
  obtain ⟨op, hopc, hcon⟩ := hops
  have hopne : op ≠ [] := by rcases hopc with rfl | rfl | rfl <;> decide
  have hopws : ∀ x ∈ op, isWsChar x = false := by
    rcases hopc with rfl | rfl | rfl <;> decide
  have hinf : op <:+: command := (containsStr_iff_occurs _ _).mp hcon
  have htrim_inf : op <:+: trimStr command := occurs_trimStr hopws hopne hinf
  have htrim : trimStr command ≠ [] := by
    intro h0
    rw [h0, List.infix_nil] at htrim_inf
    exact hopne htrim_inf
  have hcmd : command ≠ [] := by
    rintro rfl
    rw [List.infix_nil] at hinf
    exact hopne hinf
  obtain ⟨x, t, hxt, hxw⟩ := trimStr_head_not_ws htrim
  have hxsp : x ≠ ' ' := by
    intro he
    rw [he] at hxw
    exact absurd hxw (by decide)
  have hbase : toLowerStr ((splitOnChar ' ' (trimStr command)).headD []) ≠ [] := by
    rw [hxt]
    intro h0
    exact splitOnChar_headD_ne_nil t hxsp (List.map_eq_nil_iff.mp h0)
  rw [baseToken] at hnd
  have hchain : (containsStr (trimStr command) (str "&&")
      || containsStr (trimStr command) (str "||")
      || containsStr (trimStr command) (str ";")) = true := by
    rcases hopc with rfl | rfl | rfl <;>
      simp [(containsStr_iff_occurs _ _).mpr htrim_inf]
  simp only [isCommandSafe]
  rw [if_neg hcmd, if_neg htrim, if_neg hbase, if_neg hnd, if_pos hchain]

/-! ## Claims about the shell safety classifier -/

/-- Claim C2: the claim asserts an environment-selected policy mode
(`strict`/`relaxed`/`off`) under which, in `relaxed`/`off`, the
classifier accepts every command unmodified.  `isCommandSafe` takes only
the command string — it reads no environment and has no mode input — and
it rejects `"sudo ls"` unconditionally, so no configuration of the
process makes the classifier accept every command.  (The repository's
README documents `AGENT_SHELL_SAFETY=strict|relaxed|off`, which the code
never reads.) -/
theorem sudo_rejected_under_every_configuration :
    isCommandSafe (str "sudo ls")
      = ⟨false, some (dangerousReason (str "sudo"))⟩ := by decide

/-- Claim C5, counterexample: `"rm -rf tmp && ls"` contains a chaining
operator, is classified unsafe, but the reason is the dangerous-command
message for `rm`, which does not mention chaining — the dangerous-command
check runs first. -/
theorem chaining_reason_counterexample :
    containsChainOp (str "rm -rf tmp && ls") = true
      ∧ isCommandSafe (str "rm -rf tmp && ls")
          = ⟨false, some (dangerousReason (str "rm"))⟩
      ∧ containsStr (dangerousReason (str "rm")) (str "chaining") = false := by
  decide

/-- Claim C5, amended: every command containing a chaining operator
(`&&`, `||`, `;`) is classified unsafe; the reason mentions chaining
whenever the base token is not in the destructive-command list (otherwise
the dangerous-command reason, which precedes the chaining check, is
returned instead). -/
theorem chaining_commands_rejected (command : Str)
    (h : containsChainOp command = true) :
    (isCommandSafe command).safe = false
      ∧ (baseToken command ∉ DANGEROUS_COMMANDS →
          (isCommandSafe command).reason = some chainingReason
            ∧ containsStr chainingReason (str "chaining") = true) := by
  by_cases hd : baseToken command ∈ DANGEROUS_COMMANDS
  · rw [isCommandSafe_dangerous hd]
    exact ⟨rfl, fun hnd => absurd hd hnd⟩
  · rw [isCommandSafe_chaining h hd]
    exact ⟨rfl, fun _ => ⟨rfl, by decide⟩⟩

/-- Claim C5, witness: `"npm install && npm start"` is rejected with the
chaining reason. -/
theorem chaining_commands_rejected_witness :
    containsChainOp (str "npm install && npm start") = true
      ∧ (isCommandSafe (str "npm install && npm start")).safe = false
      ∧ (isCommandSafe (str "npm install && npm start")).reason
          = some chainingReason := by
  refine ⟨by decide, ?_, ?_⟩
  · exact (chaining_commands_rejected (str "npm install && npm start") (by decide)).1
  · exact ((chaining_commands_rejected (str "npm install && npm start")
      (by decide)).2 (by decide)).1

/-- Claim C6: every command whose base token (first space-separated
piece of the trimmed command, lowercased) is in `DANGEROUS_COMMANDS` is
rejected with the dangerous-command reason naming that base; this reason
is produced instead of the allow-list reason (the dangerous check runs
first), and `"ls -la"` is safe. -/
theorem dangerous_base_rejected (command : Str)
    (h : baseToken command ∈ DANGEROUS_COMMANDS) :
    isCommandSafe command = ⟨false, some (dangerousReason (baseToken command))⟩
      ∧ containsStr (dangerousReason (baseToken command)) (baseToken command) = true
      ∧ dangerousReason (baseToken command) ≠ notAllowedReason (baseToken command)
      ∧ (isCommandSafe (str "ls -la")).safe = true :=
  ⟨isCommandSafe_dangerous h, containsStr_dangerousReason _,
   dangerousReason_ne_notAllowedReason _, by decide⟩

/-- Claim C6, witness: `"sudo npm install"` has base token `sudo` and is
rejected with the dangerous-command reason naming it. -/
theorem dangerous_base_rejected_witness :
    baseToken (str "sudo npm install") ∈ DANGEROUS_COMMANDS
      ∧ isCommandSafe (str "sudo npm install")
          = ⟨false, some (dangerousReason (str "sudo"))⟩ := by
  have h := (dangerous_base_rejected (str "sudo npm install") (by decide)).1
  refine ⟨by decide, ?_⟩
  rw [h]
  decide

/-! ## Claims about the execution engine -/

/-- Whether a spawn event is the `close` event. -/
def SpawnEvent.isClose : SpawnEvent → Bool
  | .close _ => true
  | _ => false

theorem interactiveLoop_no_close (command : Str) (events : List SpawnEvent)
    (h : events.all (fun e => !e.isClose) = true) :
    ∀ out err, interactiveLoop command out err events = none := by
  induction events with
  | nil => intro out err; rfl
  | cons e rest ih =>
    rw [List.all_cons, Bool.and_eq_true] at h
    intro out err
    cases e with
    | stdoutData chunk => exact ih h.2 _ _
    | stderrData chunk => exact ih h.2 _ _
    | close code => exact absurd h.1 (by simp [SpawnEvent.isClose])

/-- Claim C3: the interactive branch of `executeShellCommand` enforces no
timeout at all.  Its result does not depend on the `timeout` option (the
option is simply not passed to `executeInteractiveCommand`), no
termination signal is ever sent, and as long as the child process emits
no `close` event the call never resolves — an interactive command can
block indefinitely. -/
theorem interactive_timeout_not_enforced (command cwd : Str) (t₁ t₂ : Int)
    (outcome : ExecOutcome) (events : List SpawnEvent)
    (hne : (splitOnChar ' ' command).filter (· ≠ []) ≠ [])
    (hnoclose : events.all (fun e => !e.isClose) = true) :
    executeShellCommand command ⟨cwd, t₁, true⟩ outcome events
        = executeShellCommand command ⟨cwd, t₂, true⟩ outcome events
      ∧ executeShellCommand command ⟨cwd, t₁, true⟩ outcome events = none := by
  refine ⟨rfl, ?_⟩
  show executeInteractiveCommand command events = none
  simp only [executeInteractiveCommand]
  rw [if_neg hne]
  exact interactiveLoop_no_close command events hnoclose [] []

/-- Claim C3, witness: with a sixty-second timeout requested, an
interactive `sleep 100` whose child only emits output never resolves. -/
theorem interactive_timeout_not_enforced_witness :
    (splitOnChar ' ' (str "sleep 100")).filter (· ≠ []) ≠ []
      ∧ executeShellCommand (str "sleep 100") ⟨str "/proj", 60000, true⟩
          (.success [] []) [SpawnEvent.stdoutData (str "x")] = none :=
  ⟨by decide,
   (interactive_timeout_not_enforced (str "sleep 100") (str "/proj") 60000 1
     (.success [] []) [SpawnEvent.stdoutData (str "x")]
     (by decide) (by decide)).2⟩

/-! ## Claims about validation -/

/-- Claim C4: the repository's own evaluation test expects
`validateEdit` to reject `"../outside/project.ts"`, but `validateEdit`
performs no path check at all and returns `isValid = true` with no
errors on exactly that input, whatever the file system or JSON parser
do.  (The service-level `preflight` does reject that example, yet its
string-prefix test also lets through sibling paths such as
`"/projX/x.ts"` under root `"/proj"`, which lie outside the root.) -/
theorem path_escape_not_rejected_by_validateEdit :
    (∀ fileReadable jsonOk : Str → Bool,
      validateEdit fileReadable jsonOk
        ⟨str "../outside/project.ts", [], str "malicious code", none, str "bad path"⟩
        = ⟨true, [], []⟩)
      ∧ preflight (str "/proj") ⟨str "/projX/x.ts", [], [], none, []⟩ = none
      ∧ preflight (str "/proj") ⟨str "../outside/x.ts", [], [], none, []⟩
          = some ⟨false,
              [str "File path escapes project root: " ++ str "../outside/x.ts"], []⟩ :=
  ⟨fun _ _ => rfl, rfl, rfl⟩

/-! ## Claims about the edit application engine -/

/-- Claim C8: applying a proposal with `original = "old code"`,
`replacement = "new code"`, `lineNumber = 1` to a file whose first line
contains `"old code"` succeeds and yields the file whose first line is
the old first line with that (first) occurrence replaced and all other
lines unchanged. -/
theorem apply_line1_replaces_first_line (l₀ : Str) (rest : List Str)
    (hcon : containsStr l₀ (str "old code") = true)
    (hl : '\n' ∉ l₀) (hrest : ∀ l ∈ rest, '\n' ∉ l) :
    applyEditContent (str "old code") (str "new code") (some 1)
        (joinWith '\n' (l₀ :: rest))
      = .ok (joinWith '\n'
          (replaceFirst l₀ (str "old code") (str "new code") :: rest))
      ∧ splitOnChar '\n' (joinWith '\n'
          (replaceFirst l₀ (str "old code") (str "new code") :: rest))
        = replaceFirst l₀ (str "old code") (str "new code") :: rest := by
  have hall : ∀ p ∈ l₀ :: rest, '\n' ∉ p := by
    intro p hp
    rcases List.mem_cons.mp hp with rfl | hmem
    · exact hl
    · exact hrest p hmem
  have hsplit : splitOnChar '\n' (joinWith '\n' (l₀ :: rest)) = l₀ :: rest :=
    splitOnChar_joinWith hall (List.cons_ne_nil _ _)
  have hl₀ne : l₀ ≠ [] := ne_nil_of_containsStr hcon (by decide)
  have hrep_nl : '\n' ∉ replaceFirst l₀ (str "old code") (str "new code") := by
    intro hmem
    rcases mem_replaceFirst hmem with h1 | h2
    · exact hl h1
    · exact absurd h2 (by decide)
  constructor
  · simp only [applyEditContent]
    rw [hsplit]
    have hget : getAt (l₀ :: rest) ((1 : Int) - 1) = some l₀ := by
      rw [getAt]
      norm_num
    rw [hget]
    dsimp only
    rw [if_pos (by rw [hcon]; simp [hl₀ne])]
    have hset : setAt (l₀ :: rest) ((1 : Int) - 1)
        (replaceFirst l₀ (str "old code") (str "new code"))
        = replaceFirst l₀ (str "old code") (str "new code") :: rest := by
      rw [setAt]
      norm_num
    rw [hset]
  · refine splitOnChar_joinWith ?_ (List.cons_ne_nil _ _)
    intro p hp
    rcases List.mem_cons.mp hp with rfl | hmem
    · exact hrep_nl
    · exact hrest p hmem

/-- Claim C8, witness: the replacement applied to the two-line file
`"my old code\nx"`. -/
theorem apply_line1_replaces_first_line_witness :
    applyEditContent (str "old code") (str "new code") (some 1)
        (joinWith '\n' (str "my old code" :: [str "x"]))
      = .ok (joinWith '\n'
          (replaceFirst (str "my old code") (str "old code") (str "new code")
            :: [str "x"])) :=
  (apply_line1_replaces_first_line (str "my old code") [str "x"]
    (by decide) (by decide) (by decide)).1

theorem applyEditFallback_nil_pat (rep content : Str) :
    applyEditFallback [] rep content = .ok (rep ++ content) := by
  rw [applyEditFallback, strIndexOf_nil_pat]
  simp

/-- Claim C10: with a set `lineNumber` and an empty `original`,
`applyEdit` never fails with "Original snippet not found": when the
addressed line exists and is non-empty the replacement is prepended to
that line; otherwise (out-of-range line, or an empty addressed line,
which is falsy in the JavaScript guard) the replacement is prepended to
the whole content via the `indexOf` fallback, since the empty string
occurs at index 0. -/
theorem apply_empty_original_never_fails (rep content : Str) (n : Int) :
    (∃ r, applyEditContent [] rep (some n) content = .ok r)
      ∧ (∀ l, getAt (splitOnChar '\n' content) (n - 1) = some l → l ≠ [] →
          applyEditContent [] rep (some n) content
            = .ok (joinWith '\n'
                (setAt (splitOnChar '\n' content) (n - 1) (rep ++ l))))
      ∧ ((getAt (splitOnChar '\n' content) (n - 1) = none
            ∨ getAt (splitOnChar '\n' content) (n - 1) = some []) →
          applyEditContent [] rep (some n) content = .ok (rep ++ content)) := by
  have hbody : ∀ l, getAt (splitOnChar '\n' content) (n - 1) = some l → l ≠ [] →
      applyEditContent [] rep (some n) content
        = .ok (joinWith '\n' (setAt (splitOnChar '\n' content) (n - 1) (rep ++ l))) := by
    intro l hget hlne
    simp only [applyEditContent]
    rw [hget]
    dsimp only
    rw [if_pos (by rw [containsStr_nil_pat]; simp [hlne]), replaceFirst_nil_pat]
  have hfall : (getAt (splitOnChar '\n' content) (n - 1) = none
        ∨ getAt (splitOnChar '\n' content) (n - 1) = some []) →
      applyEditContent [] rep (some n) content = .ok (rep ++ content) := by
    rintro (hget | hget) <;> simp only [applyEditContent] <;> rw [hget] <;> dsimp only
    · exact applyEditFallback_nil_pat rep content
    · rw [if_neg (by simp)]
      exact applyEditFallback_nil_pat rep content
  refine ⟨?_, hbody, hfall⟩
  cases hget : getAt (splitOnChar '\n' content) (n - 1) with
  | none => exact ⟨rep ++ content, hfall (Or.inl hget)⟩
  | some l =>
    cases hl : l with
    | nil => exact ⟨rep ++ content, hfall (Or.inr (hl ▸ hget))⟩
    | cons c cs =>
      exact ⟨_, hbody l hget (by rw [hl]; exact List.cons_ne_nil c cs)⟩

/-- Claim C10, witness: prepending `"X"` at line 1 of `"ab\ncd"` and at
the out-of-range line 5. -/
theorem apply_empty_original_never_fails_witness :
    applyEditContent [] (str "X") (some 1) (str "ab\ncd")
      = .ok (joinWith '\n'
          (setAt (splitOnChar '\n' (str "ab\ncd")) ((1 : Int) - 1)
            (str "X" ++ str "ab")))
      ∧ applyEditContent [] (str "X") (some 5) (str "ab\ncd")
        = .ok (str "X" ++ str "ab\ncd") :=
  ⟨(apply_empty_original_never_fails (str "X") (str "ab\ncd") 1).2.1
      (str "ab") (by decide) (by decide),
   (apply_empty_original_never_fails (str "X") (str "ab\ncd") 5).2.2
      (Or.inl (by decide))⟩

/-! ## Claims about compound actions -/

/-- Whether an event is an applied edit. -/
def CompoundEvent.isApplied : CompoundEvent → Bool
  | .appliedEdit _ => true
  | _ => false

/-- Whether an event is an executed (non-`cd`) command. -/
def CompoundEvent.isRan : CompoundEvent → Bool
  | .ranCommand _ _ => true
  | _ => false

theorem runPendingCommands_not_applied (O : CompoundOracles) (cmds : List Str) :
    ∀ e ∈ runPendingCommands O cmds, e.isApplied = false := by
  induction cmds with
  | nil => intro e he; exact absurd he (List.not_mem_nil e)
  | cons cmd rest ih =>
    intro e he
    rw [runPendingCommands] at he
    rcases List.mem_append.mp he with h1 | h2
    · by_cases hcd : isCdOnly (trimStr cmd)
      · rw [if_pos hcd] at h1
        rw [cdEvents] at h1
        cases hr : O.resolveNav (trimStr cmd) with
        | none =>
          rw [hr] at h1
          dsimp only at h1
          rcases List.mem_singleton.mp h1 with rfl
          rfl
        | some target =>
          rw [hr] at h1
          dsimp only at h1
          by_cases hok : O.chdirOk target
          · rw [if_pos hok] at h1
            rcases List.mem_singleton.mp h1 with rfl
            rfl
          · rw [if_neg hok] at h1
            rcases List.mem_singleton.mp h1 with rfl
            rfl
      · rw [if_neg hcd] at h1
        rcases List.mem_singleton.mp h1 with rfl
        rfl
    · exact ih e h2

theorem runPendingCommands_filter_ran (O : CompoundOracles) (cmds : List Str) :
    (runPendingCommands O cmds).filter (·.isRan)
      = (cmds.filter (fun c => !isCdOnly (trimStr c))).map
          (fun c => CompoundEvent.ranCommand c (O.exec c)) := by
  induction cmds with
  | nil => rfl
  | cons cmd rest ih =>
    rw [runPendingCommands, List.filter_append, List.filter_cons]
    by_cases hcd : isCdOnly (trimStr cmd)
    · rw [if_pos hcd]
      have hcdnone : (cdEvents O (trimStr cmd)).filter (·.isRan) = [] := by
        rw [cdEvents]
        cases hr : O.resolveNav (trimStr cmd) with
        | none => rfl
        | some target =>
          by_cases hok : O.chdirOk target <;>
            simp [hok, CompoundEvent.isRan]
      rw [hcdnone, List.nil_append, ih]
      simp [hcd]
    · rw [if_neg hcd]
      simp only [hcd]
      rw [ih]
      simp [CompoundEvent.isRan]

theorem applyEditsTrace_applied (applyOk : Proposal → Bool) (ps : List Proposal) :
    ∀ e ∈ applyEditsTrace applyOk ps, e.isApplied = true := by
  induction ps with
  | nil => intro e he; exact absurd he (List.not_mem_nil e)
  | cons p rest ih =>
    intro e he
    rw [applyEditsTrace] at he
    by_cases hok : applyOk p
    · rw [if_pos hok] at he
      rcases List.mem_cons.mp he with rfl | hmem
      · rfl
      · exact ih e hmem
    · rw [if_neg hok] at he
      exact absurd he (List.not_mem_nil e)

theorem applyEditsTrace_all_ok {applyOk : Proposal → Bool} {ps : List Proposal}
    (h : ∀ p ∈ ps, applyOk p = true) :
    applyEditsTrace applyOk ps = ps.map .appliedEdit := by
  induction ps with
  | nil => rfl
  | cons p rest ih =>
    rw [applyEditsTrace, if_pos (h p (List.mem_cons_self p rest)),
        ih (fun q hq => h q (List.mem_cons_of_mem p hq)), List.map_cons]

/-- Claim C1, counterexample: two non-`cd` commands and one proposal;
the first command exits with code 1, yet the second command still runs
and the edit phase still applies the proposal — nothing is skipped on a
non-zero exit. -/
theorem accept_phase_counterexample :
    acceptPhase
      { search := fun _ => [], propose := fun _ _ => [],
        validate := fun _ => ⟨true, [], []⟩,
        exec := fun c => if c = str "node a.js" then 1 else 0,
        resolveNav := fun _ => none, chdirOk := fun _ => true,
        revise := fun _ _ _ => [], revisionConfirm := false }
      (fun _ => true)
      [str "node a.js", str "node b.js"]
      [⟨str "x.ts", str "a", str "b", none, str "e"⟩]
      = [.ranCommand (str "node a.js") 1,
         .ranCommand (str "node b.js") 0,
         .appliedEdit ⟨str "x.ts", str "a", str "b", none, str "e"⟩] := by
  decide

/-- Claim C1, amended: in the accept branch every command event precedes
every edit event, every non-`cd` pending command is executed in list
order with its exit code — also after an earlier non-zero exit — and
when every `applyEdit` succeeds all proposals are applied; a non-zero
exit neither skips the remaining commands nor prevents the edit phase. -/
theorem accept_phase_commands_then_edits (O : CompoundOracles)
    (applyOk : Proposal → Bool) (cmds : List Str) (proposals : List Proposal) :
    (acceptPhase O applyOk cmds proposals).filter (fun e => !e.isApplied)
        ++ (acceptPhase O applyOk cmds proposals).filter (·.isApplied)
      = acceptPhase O applyOk cmds proposals
      ∧ (acceptPhase O applyOk cmds proposals).filter (·.isRan)
        = (cmds.filter (fun c => !isCdOnly (trimStr c))).map
            (fun c => CompoundEvent.ranCommand c (O.exec c))
      ∧ ((∀ p ∈ proposals, applyOk p = true) →
          (acceptPhase O applyOk cmds proposals).filter (·.isApplied)
            = proposals.map .appliedEdit) := by
  have hA := runPendingCommands_not_applied O cmds
  have hB := applyEditsTrace_applied applyOk proposals
  have h1 : (runPendingCommands O cmds).filter (fun e => !e.isApplied)
      = runPendingCommands O cmds :=
    List.filter_eq_self.mpr (fun e he => by simp [hA e he])
  have h2 : (applyEditsTrace applyOk proposals).filter (fun e => !e.isApplied) = [] :=
    List.filter_eq_nil_iff.mpr (fun e he => by simp [hB e he])
  have h3 : (runPendingCommands O cmds).filter (·.isApplied) = [] :=
    List.filter_eq_nil_iff.mpr (fun e he => by simp [hA e he])
  have h4 : (applyEditsTrace applyOk proposals).filter (·.isApplied)
      = applyEditsTrace applyOk proposals :=
    List.filter_eq_self.mpr (fun e he => hB e he)
  refine ⟨?_, ?_, ?_⟩
  · rw [acceptPhase, List.filter_append, List.filter_append, h1, h2, h3, h4,
        List.append_nil, List.nil_append]
  · rw [acceptPhase, List.filter_append, runPendingCommands_filter_ran]
    have hBran : (applyEditsTrace applyOk proposals).filter (·.isRan) = [] := by
      refine List.filter_eq_nil_iff.mpr (fun e he => ?_)
      have := hB e he
      cases e <;> simp_all [CompoundEvent.isApplied, CompoundEvent.isRan]
    rw [hBran, List.append_nil]
  · intro hall
    rw [acceptPhase, List.filter_append, h3, h4, List.nil_append,
        applyEditsTrace_all_ok hall]

/-- Claim C1, witness for the amended statement: one failing command
followed by a successful one, then the single edit. -/
theorem accept_phase_commands_then_edits_witness :
    (acceptPhase
      { search := fun _ => [], propose := fun _ _ => [],
        validate := fun _ => ⟨true, [], []⟩,
        exec := fun c => if c = str "git status" then 2 else 0,
        resolveNav := fun _ => none, chdirOk := fun _ => true,
        revise := fun _ _ _ => [], revisionConfirm := false }
      (fun _ => true)
      [str "git status"]
      [⟨str "y.ts", str "a", str "b", none, str "e"⟩]).filter (·.isApplied)
      = [⟨str "y.ts", str "a", str "b", none, str "e"⟩].map CompoundEvent.appliedEdit :=
  (accept_phase_commands_then_edits _ _ _ _).2.2 (by decide)

/-- A code-change step (one that goes through the search path) for which
the step loop must abort: its search comes back empty, or some generated
proposal fails validation. -/
def stepFails (O : CompoundOracles) (step : CompoundStep) : Prop :=
  stepShellCommand? step = none
    ∧ (O.search step = []
        ∨ ∃ m ms, O.search step = m :: ms
            ∧ (validateEdits O.validate (O.propose step m)).any
                (fun v => !v.isValid) = true)

theorem processSteps_error_of_stepFails (O : CompoundOracles)
    (steps : List CompoundStep) (acc : StepAcc)
    (h : ∃ step ∈ steps, stepFails O step) :
    ∃ r, processSteps O steps acc = .error r := by
  induction steps generalizing acc with
  | nil =>
    obtain ⟨step, hmem, _⟩ := h
    exact absurd hmem (List.not_mem_nil step)
  | cons s rest ih =>
    rw [processSteps]
    cases hsc : stepShellCommand? s with
    | some cmd =>
      have hrest : ∃ step ∈ rest, stepFails O step := by
        obtain ⟨step, hmem, hf⟩ := h
        rcases List.mem_cons.mp hmem with rfl | hmem'
        · exact absurd hf.1 (by rw [hsc]; simp)
        · exact ⟨step, hmem', hf⟩
      dsimp only
      by_cases hsafe : (isCommandSafe cmd).safe
      · rw [if_pos hsafe]
        exact ih _ hrest
      · rw [if_neg hsafe]
        exact ⟨_, rfl⟩
    | none =>
      cases hsr : O.search s with
      | nil =>
        dsimp only
        exact ⟨.noMatches, rfl⟩
      | cons m ms =>
        dsimp only
        by_cases hv : (validateEdits O.validate (O.propose s m)).any
            (fun v => !v.isValid) = true
        · rw [if_pos hv]
          exact ⟨.validationFailed, rfl⟩
        · rw [if_neg hv]
          have hrest : ∃ step ∈ rest, stepFails O step := by
            obtain ⟨step, hmem, hf⟩ := h
            rcases List.mem_cons.mp hmem with rfl | hmem'
            · rcases hf.2 with hempty | ⟨m', ms', hsr', hv'⟩
              · rw [hsr] at hempty
                exact absurd hempty (List.cons_ne_nil m ms)
              · rw [hsr] at hsr'
                injection hsr' with hm hms
                subst hm
                exact absurd hv' hv
            · exact ⟨step, hmem', hf⟩
          exact ih _ hrest

/-- Claim C7: when any step of a compound action either finds no search
match or produces a proposal failing validation, the whole compound
action aborts: the trace is empty — no pending command or proposal is
presented, no command is run, no edit is applied, nothing touches the
disk — regardless of what the user would have answered. -/
theorem compound_aborts_before_anything (O : CompoundOracles)
    (applyOk : Proposal → Bool) (fb : Feedback) (steps : List CompoundStep)
    (h : ∃ step ∈ steps, stepFails O step) :
    compoundTrace O applyOk fb steps = [] := by
  obtain ⟨r, hr⟩ := processSteps_error_of_stepFails O steps ⟨[], [], [], []⟩ h
  rw [compoundTrace, hr]

/-- Claim C7, witness: a three-step compound action — a safe shell step,
then a code step whose search finds nothing — produces no event at all:
step 1's command is never presented or executed. -/
theorem compound_aborts_before_anything_witness :
    compoundTrace
      { search := fun _ => [], propose := fun _ _ => [],
        validate := fun _ => ⟨true, [], []⟩, exec := fun _ => 0,
        resolveNav := fun _ => none, chdirOk := fun _ => true,
        revise := fun _ _ _ => [], revisionConfirm := false }
      (fun _ => true) .yes
      [⟨.shell_command, str "project", str "install", some (str "npm install")⟩,
       ⟨.modify_code, str "server.js", str "add route", none⟩,
       ⟨.add_code, str "index.html", str "add page", none⟩]
      = [] :=
  compound_aborts_before_anything _ _ _ _
    ⟨⟨.modify_code, str "server.js", str "add route", none⟩,
     by simp,
     ⟨rfl, Or.inl rfl⟩⟩

/-! ## Claims about search ranking -/

theorem calculateRelevance_exact_beats_tokens (keyword file : Str)
    (opts : SearchOptions) (lineA lineB : Str)
    (hA : containsStr lineA keyword = true)
    (hB : containsStr (toLowerStr lineB) (toLowerStr keyword) = false)
    (hhits : hitsCount lineB file opts ≤ hitsCount lineA file opts + 9) :
    calculateRelevance lineB keyword file opts
      < calculateRelevance lineA keyword file opts := by
  have hA_lower : containsStr (toLowerStr lineA) (toLowerStr keyword) = true :=
    containsStr_toLower hA
  have hB_case : containsStr lineB keyword = false := by
    cases hc : containsStr lineB keyword
    · rfl
    · have := containsStr_toLower hc
      rw [hB] at this
      exact absurd this (by simp)
  have e1 : (if containsStr (toLowerStr lineA) (toLowerStr keyword) = true
      then (10 : Int) else 0) = 10 := by rw [hA_lower]; simp
  have e2 : (if containsStr lineA keyword = true then (20 : Int) else 0) = 20 := by
    rw [hA]; simp
  have e3 : (if containsStr (toLowerStr lineB) (toLowerStr keyword) = true
      then (10 : Int) else 0) = 0 := by rw [hB]; simp
  have e4 : (if containsStr lineB keyword = true then (20 : Int) else 0) = 0 := by
    rw [hB_case]; simp
  simp only [calculateRelevance]
  rw [e1, e2, e3, e4]
  generalize (if (opts.target ≠ [] && containsStr (toLowerStr file)
      (toLowerStr opts.target)) = true then (30 : Int) else 0) = T
  generalize (if isTestLikePath (toLowerStr file) (toLowerStr (basenameStr file))
      = true then (40 : Int) else 0) = P
  omega

theorem sortByScoreDesc_sorted (ms : List SearchMatch) :
    List.Sorted (fun a b : SearchMatch => b.relevanceScore ≤ a.relevanceScore)
      (sortByScoreDesc ms) := by
  have h := @List.sorted_mergeSort SearchMatch
    (fun a b : SearchMatch => decide (b.relevanceScore ≤ a.relevanceScore))
    (fun a b c hab hbc => by
      simp only [decide_eq_true_eq] at *
      exact le_trans hbc hab)
    (fun a b => by
      simp only [Bool.or_eq_true, decide_eq_true_eq]
      exact le_total b.relevanceScore a.relevanceScore)
    ms
  exact h.imp fun hab => of_decide_eq_true hab

/-- Claim C9, counterexample: with keyword `"zq"`, an empty target and
description `"a0 a1 … a9 b1"`, the line `"zq"` contains the keyword as an
exact substring (score 30) while the line holding the eleven description
tokens has only token overlap yet scores 33 — strictly higher, refuting
the claimed strict dominance of exact keyword matches. -/
theorem relevance_exact_substring_counterexample :
    containsStr (str "zq") (str "zq") = true
      ∧ containsStr (toLowerStr (str "a0 a1 a2 a3 a4 a5 a6 a7 a8 a9 b1"))
          (toLowerStr (str "zq")) = false
      ∧ calculateRelevance (str "zq") (str "zq") (str "f")
            ⟨[], [], str "a0 a1 a2 a3 a4 a5 a6 a7 a8 a9 b1", [], []⟩
          < calculateRelevance (str "a0 a1 a2 a3 a4 a5 a6 a7 a8 a9 b1")
            (str "zq") (str "f")
            ⟨[], [], str "a0 a1 a2 a3 a4 a5 a6 a7 a8 a9 b1", [], []⟩ := by
  decide

/-- Claim C9, amended: over identical search options and file, a line
containing the keyword as a case-sensitive substring scores strictly
higher than a line without any (even case-insensitive) keyword
occurrence *provided* the latter's token-hit count exceeds the former's
by at most 9 (each hit is worth 3 and the keyword bonus is 10 + 20 = 30;
ten or more extra token hits can tie or win); and every match list the
search returns is sorted in descending relevance-score order. -/
theorem relevance_ranking_amended :
    (∀ (keyword file : Str) (opts : SearchOptions) (lineA lineB : Str),
      containsStr lineA keyword = true →
      containsStr (toLowerStr lineB) (toLowerStr keyword) = false →
      hitsCount lineB file opts ≤ hitsCount lineA file opts + 9 →
      calculateRelevance lineB keyword file opts
        < calculateRelevance lineA keyword file opts)
      ∧ (∀ (files : List (Str × Str)) (includeByPlan : Str → Bool)
          (keyword : Str) (opts : SearchOptions) (r : Nat → Rat)
          (newFileCandidate : Option Str) (cwd : Str),
          List.Sorted (fun a b : SearchMatch => b.relevanceScore ≤ a.relevanceScore)
            (searchCodebaseModel files includeByPlan keyword opts r
              newFileCandidate cwd)) := by
  refine ⟨calculateRelevance_exact_beats_tokens, ?_⟩
  intro files includeByPlan keyword opts r newFileCandidate cwd
  simp only [searchCodebaseModel]
  split
  · split
    · exact List.sorted_singleton _
    · exact sortByScoreDesc_sorted _
  · exact sortByScoreDesc_sorted _

/-- Claim C9, witness for the amended statement: a keyword-bearing line
against a token-free line, and the sortedness of an empty search. -/
theorem relevance_ranking_amended_witness :
    calculateRelevance (str "nothing here") (str "zq") (str "f")
        ⟨[], [], [], [], []⟩
      < calculateRelevance (str "has zq inside") (str "zq") (str "f")
        ⟨[], [], [], [], []⟩
      ∧ List.Sorted (fun a b : SearchMatch => b.relevanceScore ≤ a.relevanceScore)
          (searchCodebaseModel [] (fun _ => true) (str "zq")
            ⟨[], [], [], [], []⟩ (fun _ => 1/2) none (str "/proj")) :=
  ⟨relevance_ranking_amended.1 (str "zq") (str "f") ⟨[], [], [], [], []⟩
      (str "has zq inside") (str "nothing here") (by decide) (by decide) (by decide),
   relevance_ranking_amended.2 [] (fun _ => true) (str "zq")
      ⟨[], [], [], [], []⟩ (fun _ => 1/2) none (str "/proj")⟩
